import Mathlib

/-!
# Verification of the `simple_state` core of hyperledger/sawtooth-sabre

Shallow embedding of `sdk/src/simple_state/{addresser.rs, context.rs}`.

Embedding conventions:
* Radix addresses and hash digests are modelled as `List Char` (the character
  content of the Rust `String`s; all characters involved are ASCII hex, so
  byte indexing and character indexing coincide).
* The raw ledger (`TransactionContext`, an external interface per the spec's
  section 6) is a partial map from address to stored bucket.  Serialization of
  a `StateEntryList` to bytes and back (`into_bytes` / `from_bytes`) is a
  faithful round trip, so the store directly holds the bucket value.
* The value payload of a record (`HashMap<String, ValueType>` in Rust) is an
  abstract type `V`: `create_state_entry` converts the map to a list of
  `StateEntryValue` and `get_state_entries` converts it back to an equal map,
  so the context transports the payload unchanged.
* `KeyValueTransactionContext` is generic over an `Addresser<K>`: the context
  operations below take the addresser's two methods as function arguments
  `c : K → Addr` (`compute`) and `n : K → String` (`normalize`).  A `compute`
  failure aborts the whole operation with the propagated error; the context
  theorems concern runs where `compute` succeeds (the in-repo addressers never
  return an error, see the addresser section), so `c` is total here.
* Rust `HashMap` iteration order is unspecified; where the code iterates a
  map (the batch `entries`, the fetched `StateEntryList` map, the `key_map`
  of `delete_state_entries`) the embedding uses the underlying list order as
  a deterministic stand-in.  The confirmed theorems are stated under
  hypotheses making the result independent of that order.
* Rust `usize` arithmetic wraps modulo `2 ^ 64` (release profile); a string
  slice `s[..k]` with `k` out of range panics.  Panics are modelled explicitly
  (`Option` for `hash`, a dedicated `panicked` result for `compute`).
-/

namespace SawtoothSabre

/-- A radix address: the character content of a Rust address `String`. -/
abbrev Addr := List Char

/-- Modelled from the spec: wire record `StateEntry` of the protocol module
(`{ normalized_key: string, values: list<StateEntryValue> }`, spec section 6;
the protocol source is not under `src/`).  The `values` list is carried as the
abstract payload `V`, see the header. -/
structure StateEntry (V : Type) where
  normalizedKey : String
  values : V
deriving DecidableEq

/-- Modelled from the spec: wire record `StateEntryList` (the Bucket), the
ordered list of records stored at one address. -/
abbrev StateEntryList (V : Type) := List (StateEntry V)

/-- Modelled from the spec: `StateEntryList::contains(key)` used by
`delete_state_entries` — whether some record of the bucket carries the given
normalized key. -/
def bucketContains {V : Type} (l : StateEntryList V) (nkey : String) : Bool :=
  l.any (fun e => e.normalizedKey == nkey)

/-- The raw ledger, spec section 6: a byte payload (here: the deserialized
bucket) per existing 70-character address. -/
abbrev Store (V : Type) := Addr → Option (StateEntryList V)

def emptyStore {V : Type} : Store V := fun _ => none

def updateStore {V : Type} (s : Store V) (a : Addr) (v : Option (StateEntryList V)) :
    Store V :=
  fun a' => if a' = a then v else s a'

/-- Raw `set(entries)`: replaces the payload at each given address wholesale,
in list order (so for a duplicate address the last pair wins, as with the
`HashMap`-backed test store in `simple_state/mod.rs`). -/
def applyWrites {V : Type} (s : Store V) (ws : List (Addr × StateEntryList V)) : Store V :=
  ws.foldl (fun st w => updateStore st w.1 (some w.2)) s

/-- Raw `delete(addresses)`: removes each listed address. -/
def applyDeletes {V : Type} (s : Store V) (as : List Addr) : Store V :=
  as.foldl (fun st a => updateStore st a none) s

/-- The set of distinct addresses of a query, as a list: the fetched
`HashMap<String, StateEntryList>` of `get_state_entry_lists` holds one bucket
per distinct existing address.  (Its iteration order is arbitrary; this list
order is the deterministic stand-in.) -/
def dedupAddrs (l : List Addr) : List Addr :=
  l.foldr (fun a acc => if a ∈ acc then acc else a :: acc) []

/-- The bucket written for one key by `set_state_entries`: the fetched
`entry_list_map` holds the pre-batch bucket at the key's address; the freshly
built record is appended to its record list (or starts a new singleton
bucket).  Every key of the batch reads the pre-batch store. -/
def setBucket {V : Type} (s : Store V) (a : Addr) (e : StateEntry V) : StateEntryList V :=
  match s a with
  | some l => l ++ [e]
  | none => [e]

/-- The `(address, serialized bucket)` list handed to the raw store's set by
`set_state_entries`: one pair per key of the batch, in batch order. -/
def setWrites {K V : Type} (c : K → Addr) (n : K → String)
    (entries : List (K × V)) (s : Store V) : List (Addr × StateEntryList V) :=
  entries.map (fun kv => (c kv.1, setBucket s (c kv.1) ⟨n kv.1, kv.2⟩))

/-- Rust `KeyValueTransactionContext::set_state_entries`. -/
def setStateEntries {K V : Type} (c : K → Addr) (n : K → String)
    (entries : List (K × V)) (s : Store V) : Store V :=
  applyWrites s (setWrites c n entries s)

/-- Rust `KeyValueTransactionContext::set_state_entry`: a one-entry batch. -/
def setStateEntry {K V : Type} (c : K → Addr) (n : K → String)
    (k : K) (v : V) (s : Store V) : Store V :=
  setStateEntries c n [(k, v)] s

/-- Rust `flatten_state_entries`: all records of the fetched buckets of the queried
addresses, concatenated. -/
def flattenStateEntries {V : Type} (s : Store V) (addrs : List Addr) :
    List (StateEntry V) :=
  ((dedupAddrs addrs).map (fun a => (s a).getD [])).flatten

/-- One `HashMap::insert` while collecting the result of
`get_state_entries`: a later record with the same normalized key overwrites
an earlier one. -/
def insertEntry {V : Type} (m : String → Option V) (e : StateEntry V) :
    String → Option V :=
  fun x => if x = e.normalizedKey then some e.values else m x

/-- Collecting an iterator of records into a `HashMap` keyed by normalized
key. -/
def insertAll {V : Type} (m : String → Option V) (l : List (StateEntry V)) :
    String → Option V :=
  l.foldl insertEntry m

/-- Rust `KeyValueTransactionContext::get_state_entries`: flatten the fetched
buckets, keep the records whose normalized key is one of the queried keys'
normalized keys, and collect them into a map. -/
def getStateEntries {K V : Type} (c : K → Addr) (n : K → String)
    (keys : List K) (s : Store V) : String → Option V :=
  insertAll (fun _ => none)
    ((flattenStateEntries s (keys.map c)).filter
      (fun e => (keys.map n).contains e.normalizedKey))

/-- Rust `KeyValueTransactionContext::get_state_entry`: a one-key batch; the
returned map has at most the key `n k`, so `.into_iter().next()` is its value
at `n k`. -/
def getStateEntry {K V : Type} (c : K → Addr) (n : K → String)
    (k : K) (s : Store V) : Option V :=
  getStateEntries c n [k] s (n k)

/-- Collecting `(normalized key, address)` pairs into the `key_map` of
`delete_state_entries`: for a repeated normalized key the later pair wins. -/
def collectKeyMap (l : List (String × Addr)) : List (String × Addr) :=
  l.foldl (fun acc p => acc.filter (fun q => q.1 != p.1) ++ [p]) []

/-- The accumulated output of the `key_map` loop of `delete_state_entries`. -/
structure DeletePlan (V : Type) where
  deletedKeys : List String
  newEntryLists : List (Addr × StateEntryList V)
  deleteLists : List Addr
deriving DecidableEq

/-- The `key_map` loop of `delete_state_entries`: each pair consults the
pre-batch store; a matched record list is filtered by normalized key; an
emptied bucket goes to the raw-delete list, a non-empty one to the rewrite
list. -/
def deletePlan {V : Type} (s : Store V) : List (String × Addr) → DeletePlan V
  | [] => ⟨[], [], []⟩
  | p :: rest =>
    let pl := deletePlan s rest
    match s p.2 with
    | none => pl
    | some l =>
      if bucketContains l p.1 then
        let filtered := l.filter (fun e => e.normalizedKey != p.1)
        if filtered.isEmpty then
          ⟨p.1 :: pl.deletedKeys, pl.newEntryLists, p.2 :: pl.deleteLists⟩
        else
          ⟨p.1 :: pl.deletedKeys, (p.2, filtered) :: pl.newEntryLists, pl.deleteLists⟩
      else pl

/-- Rust `KeyValueTransactionContext::delete_state_entries`: returns the
successfully removed normalized keys and the new store (raw deletes are issued
before the raw rewrites, as in the source). -/
def deleteStateEntries {K V : Type} (c : K → Addr) (n : K → String)
    (keys : List K) (s : Store V) : List String × Store V :=
  let keyMap := collectKeyMap (keys.map (fun k => (n k, c k)))
  let pl := deletePlan s keyMap
  (pl.deletedKeys, applyWrites (applyDeletes s pl.deleteLists) pl.newEntryLists)

/-- Rust `KeyValueTransactionContext::delete_state_entry`: a one-key batch;
`.into_iter().next()` on the returned list. -/
def deleteStateEntry {K V : Type} (c : K → Addr) (n : K → String)
    (k : K) (s : Store V) : Option String × Store V :=
  let r := deleteStateEntries c n [k] s
  (r.1.head?, r.2)

/-! ## The addressers (`simple_state/addresser.rs`) -/

/-- Constant `ADDRESS_LENGTH`. -/
def addressLength : Nat := 70

/-- Value `usize::MAX + 1`: Rust `usize` arithmetic wraps modulo this (release
profile; the debug profile panics on the same inputs, which the theorems
below treat the same way as the panic the wrapped value provokes later). -/
def usizeMod : Nat := 2 ^ 64

/-- Wrapping `usize` subtraction. -/
def wrapSub (a b : Nat) : Nat := (a % usizeMod + (usizeMod - b % usizeMod)) % usizeMod

/-- Wrapping `usize` addition. -/
def wrapAdd (a b : Nat) : Nat := (a % usizeMod + b % usizeMod) % usizeMod

/-- Outcome of an addresser's `compute`: `Ok`, `Err(SimpleStateError ...)`, or
a Rust panic (out-of-range slice / overflowing arithmetic). -/
inductive ComputeResult (α : Type) where
  | ok (val : α)
  | addresserError (msg : String)
  | panicked
deriving DecidableEq

/-- Function `hash(hash_length, key)`: the first `hash_length` characters of the
SHA-512 hex digest of the key.  The digest function is a parameter `digest`
(its output is 128 lowercase hex characters; theorems that need this carry it
as a hypothesis).  `result_str()[..hash_length]` panics when `hash_length`
exceeds the digest's length, modelled by `none`. -/
def hashTrunc (digest : String → List Char) (hashLength : Nat) (key : String) :
    Option (List Char) :=
  if hashLength ≤ (digest key).length then some ((digest key).take hashLength)
  else none

/-- Struct `KeyHashAddresser { prefix }`. -/
structure KeyHashAddresser where
  pfx : List Char
deriving DecidableEq

/-- Rust `KeyHashAddresser::compute`: one segment of length
`ADDRESS_LENGTH - prefix.len()`. -/
def KeyHashAddresser.compute (digest : String → List Char) (a : KeyHashAddresser)
    (keys : String) : ComputeResult (List Char) :=
  let hashLength := wrapSub addressLength a.pfx.length
  match hashTrunc digest hashLength keys with
  | some h => .ok (a.pfx ++ h)
  | none => .panicked

/-- Rust `KeyHashAddresser::normalize`: the key itself. -/
def KeyHashAddresser.normalize (_ : KeyHashAddresser) (key : String) : String := key

/-- Struct `DoubleKeyHashAddresser { prefix, first_hash_length }`. -/
structure DoubleKeyHashAddresser where
  pfx : List Char
  firstHashLength : Nat
deriving DecidableEq

/-- Rust `DoubleKeyHashAddresser::new`: an unset first length defaults to
`(ADDRESS_LENGTH - prefix.len()) / 2`. -/
def DoubleKeyHashAddresser.new (pfx : List Char) (firstHashLength : Option Nat) :
    DoubleKeyHashAddresser :=
  ⟨pfx, firstHashLength.getD (wrapSub addressLength pfx.length / 2)⟩

/-- Rust `DoubleKeyHashAddresser::compute`: derives the second length as the
remainder, re-checks the total, then concatenates the two truncated hashes
after the prefix. -/
def DoubleKeyHashAddresser.compute (digest : String → List Char)
    (a : DoubleKeyHashAddresser) (keys : String × String) : ComputeResult (List Char) :=
  let hashLength := wrapSub addressLength a.pfx.length
  let secondHashLength := wrapSub hashLength a.firstHashLength
  if wrapAdd (wrapAdd a.pfx.length a.firstHashLength) secondHashLength ≠ addressLength then
    .addresserError "Incorrect hash length"
  else
    match hashTrunc digest a.firstHashLength keys.1,
        hashTrunc digest secondHashLength keys.2 with
    | some h1, some h2 => .ok (a.pfx ++ h1 ++ h2)
    | _, _ => .panicked

/-- Rust `DoubleKeyHashAddresser::normalize`: the components joined with `"_"`. -/
def DoubleKeyHashAddresser.normalize (_ : DoubleKeyHashAddresser)
    (keys : String × String) : String :=
  keys.1 ++ "_" ++ keys.2

/-- Function `calculate_hash_lengths(prefix_length, first_length, second_length)`. -/
def calculateHashLengths (prefixLength : Nat) :
    Option Nat → Option Nat → Nat × Nat
  | some first, some second => (first, second)
  | none, some second =>
    (wrapSub (wrapSub addressLength prefixLength) second / 2, second)
  | some first, none =>
    (first, wrapSub (wrapSub addressLength prefixLength) first / 2)
  | none, none =>
    (wrapSub addressLength prefixLength / 3, wrapSub addressLength prefixLength / 3)

/-- Struct `TripleKeyHashAddresser { prefix, first_hash_length, second_hash_length }`. -/
structure TripleKeyHashAddresser where
  pfx : List Char
  firstHashLength : Nat
  secondHashLength : Nat
deriving DecidableEq

/-- Rust `TripleKeyHashAddresser::new` via `calculate_hash_lengths`. -/
def TripleKeyHashAddresser.new (pfx : List Char)
    (firstHashLength secondHashLength : Option Nat) : TripleKeyHashAddresser :=
  let lengths := calculateHashLengths pfx.length firstHashLength secondHashLength
  ⟨pfx, lengths.1, lengths.2⟩

/-- The third segment length used by `TripleKeyHashAddresser::compute`:
`last_hash_length = hash_length - (first_hash_length + second_hash_length)`. -/
def TripleKeyHashAddresser.lastHashLength (a : TripleKeyHashAddresser) : Nat :=
  wrapSub (wrapSub addressLength a.pfx.length)
    (wrapAdd a.firstHashLength a.secondHashLength)

/-- Rust `TripleKeyHashAddresser::compute`. -/
def TripleKeyHashAddresser.compute (digest : String → List Char)
    (a : TripleKeyHashAddresser) (keys : String × String × String) :
    ComputeResult (List Char) :=
  let lastHashLength := a.lastHashLength
  if wrapAdd (wrapAdd (wrapAdd a.pfx.length a.firstHashLength) a.secondHashLength)
      lastHashLength ≠ addressLength then
    .addresserError "Incorrect hash length"
  else
    match hashTrunc digest a.firstHashLength keys.1,
        hashTrunc digest a.secondHashLength keys.2.1,
        hashTrunc digest lastHashLength keys.2.2 with
    | some h1, some h2, some h3 => .ok (a.pfx ++ h1 ++ h2 ++ h3)
    | _, _, _ => .panicked

/-- Rust `TripleKeyHashAddresser::normalize`. -/
def TripleKeyHashAddresser.normalize (_ : TripleKeyHashAddresser)
    (keys : String × String × String) : String :=
  keys.1 ++ "_" ++ keys.2.1 ++ "_" ++ keys.2.2

/-- Lowercase hexadecimal characters, as produced by `result_str()`. -/
def isHexChar (ch : Char) : Bool :=
  ch.isDigit || ('a' ≤ ch && ch ≤ 'f')

/-- A stand-in digest used by the concrete witnesses: 128 hex characters for
every input. -/
def constDigest : String → List Char := fun _ => List.replicate 128 'a'

/-! ## Basic lemmas about the store and the context operations -/

@[simp]
theorem updateStore_self {V : Type} (s : Store V) (a : Addr) (v : Option (StateEntryList V)) :
    updateStore s a v a = v := by
  simp [updateStore]

theorem updateStore_ne {V : Type} (s : Store V) (a a' : Addr)
    (v : Option (StateEntryList V)) (h : a' ≠ a) : updateStore s a v a' = s a' := by
  simp [updateStore, h]

theorem updateStore_idem {V : Type} (s : Store V) (a : Addr)
    (u w : Option (StateEntryList V)) :
    updateStore (updateStore s a u) a w = updateStore s a w := by
  funext a'
  by_cases h : a' = a <;> simp [updateStore, h]

theorem setBucket_eq {V : Type} (s : Store V) (a : Addr) (e : StateEntry V) :
    setBucket s a e = (s a).getD [] ++ [e] := by
  unfold setBucket
  cases s a <;> simp

@[simp]
theorem dedupAddrs_single (a : Addr) : dedupAddrs [a] = [a] := by
  simp [dedupAddrs]

theorem dedupAddrs_pair_ne {a1 a2 : Addr} (h : a1 ≠ a2) :
    dedupAddrs [a1, a2] = [a1, a2] := by
  simp [dedupAddrs, h]

@[simp]
theorem flattenStateEntries_single {V : Type} (s : Store V) (a : Addr) :
    flattenStateEntries s [a] = (s a).getD [] := by
  simp [flattenStateEntries]

theorem flattenStateEntries_pair_ne {V : Type} (s : Store V) {a1 a2 : Addr}
    (h : a1 ≠ a2) : flattenStateEntries s [a1, a2] = (s a1).getD [] ++ (s a2).getD [] := by
  simp [flattenStateEntries, dedupAddrs_pair_ne h]

theorem insertAll_append {V : Type} (m : String → Option V)
    (l1 l2 : List (StateEntry V)) :
    insertAll m (l1 ++ l2) = insertAll (insertAll m l1) l2 := by
  simp [insertAll, List.foldl_append]

theorem insertAll_of_forall_ne {V : Type} (m : String → Option V)
    (l : List (StateEntry V)) (x : String) (h : ∀ e ∈ l, e.normalizedKey ≠ x) :
    insertAll m l x = m x := by
  induction l generalizing m with
  | nil => rfl
  | cons e t ih =>
    have hx : x ≠ e.normalizedKey := fun hxe => h e (by simp) hxe.symm
    simp only [insertAll, List.foldl_cons] at *
    rw [ih _ fun e' he' => h e' (by simp [he'])]
    simp [insertEntry, hx]

theorem insertAll_concat_self {V : Type} (m : String → Option V)
    (l : List (StateEntry V)) (e : StateEntry V) :
    insertAll m (l ++ [e]) e.normalizedKey = some e.values := by
  rw [insertAll_append]
  simp [insertAll, insertEntry]

/-- The store after a one-entry `set_state_entries` batch. -/
theorem setStateEntry_eq {K V : Type} (c : K → Addr) (n : K → String)
    (k : K) (v : V) (s : Store V) :
    setStateEntry c n k v s =
      updateStore s (c k) (some ((s (c k)).getD [] ++ [⟨n k, v⟩])) := by
  simp [setStateEntry, setStateEntries, setWrites, applyWrites, setBucket_eq]

/-- Rewriting `get_state_entry` in terms of the bucket at the key's address. -/
theorem getStateEntry_eq {K V : Type} (c : K → Addr) (n : K → String)
    (k : K) (s : Store V) :
    getStateEntry c n k s =
      insertAll (fun _ => none)
        (((s (c k)).getD []).filter (fun e => decide (e.normalizedKey = n k))) (n k) := by
  simp [getStateEntry, getStateEntries]

/-- A single-key `delete_state_entry` as a case split on the bucket at the
key's address. -/
theorem deleteStateEntry_eq {K V : Type} (c : K → Addr) (n : K → String)
    (k : K) (s : Store V) :
    deleteStateEntry c n k s =
      match s (c k) with
      | none => (none, s)
      | some l =>
        if bucketContains l (n k) then
          if (l.filter (fun e => e.normalizedKey != n k)).isEmpty then
            (some (n k), updateStore s (c k) none)
          else
            (some (n k),
              updateStore s (c k) (some (l.filter (fun e => e.normalizedKey != n k))))
        else (none, s) := by
  unfold deleteStateEntry deleteStateEntries
  have hkm : collectKeyMap [(n k, c k)] = [(n k, c k)] := by
    simp [collectKeyMap]
  rw [List.map_cons, List.map_nil, hkm]
  cases h : s (c k) with
  | none => simp [deletePlan, h, applyWrites, applyDeletes]
  | some l =>
    by_cases hb : bucketContains l (n k)
    · by_cases he : (l.filter (fun e => e.normalizedKey != n k)).isEmpty
      · simp [deletePlan, h, hb, he, applyWrites, applyDeletes]
      · simp [deletePlan, h, hb, he, applyWrites, applyDeletes]
    · simp [deletePlan, h, hb, applyWrites, applyDeletes]

theorem deleteStateEntry_of_none {K V : Type} {c : K → Addr} {n : K → String}
    {k : K} {s : Store V} (h : s (c k) = none) :
    deleteStateEntry c n k s = (none, s) := by
  rw [deleteStateEntry_eq, h]

theorem deleteStateEntry_of_some {K V : Type} {c : K → Addr} {n : K → String}
    {k : K} {s : Store V} {l : StateEntryList V} (h : s (c k) = some l) :
    deleteStateEntry c n k s =
      if bucketContains l (n k) then
        if (l.filter (fun e => e.normalizedKey != n k)).isEmpty then
          (some (n k), updateStore s (c k) none)
        else
          (some (n k),
            updateStore s (c k) (some (l.filter (fun e => e.normalizedKey != n k))))
      else (none, s) := by
  rw [deleteStateEntry_eq, h]

/-! ## C4: round trip -/

/-- C4: for every natural key `k` and value map `v`, starting from any store
(well-formed or not), `set_state_entry k v` followed by `get_state_entry k`
returns exactly `some v` — also when a record with `normalize k` already
existed in the bucket at `compute k` before the set, because the freshly
built record is appended at the end of the bucket and a later record
overwrites an earlier one when the result map is collected. -/
theorem C4_round_trip {K V : Type} (c : K → Addr) (n : K → String)
    (k : K) (v : V) (s : Store V) :
    getStateEntry c n k (setStateEntry c n k v s) = some v := by
  rw [getStateEntry_eq, setStateEntry_eq]
  simp only [updateStore_self, Option.getD_some, List.filter_append]
  have he : (⟨n k, v⟩ : StateEntry V).normalizedKey == n k := by simp
  rw [List.filter_cons]
  simp only [he, if_pos, List.filter_nil]
  exact insertAll_concat_self _ _ ⟨n k, v⟩

/-! ## C5: collision coexistence -/

/-- C5: for natural keys with distinct normalized keys but a common computed
address, sequential sets of both keys leave both retrievable; deleting the
first returns its normalized key and leaves the second untouched.  (Proved
from an arbitrary initial store; the hypothesis `c k1 = c k2` is the claim's
collision assumption.) -/
theorem C5_collision_coexistence {K V : Type} (c : K → Addr) (n : K → String)
    (k1 k2 : K) (v1 v2 : V) (s : Store V)
    (hn : n k1 ≠ n k2) (hc : c k1 = c k2) :
    getStateEntry c n k1 (setStateEntry c n k2 v2 (setStateEntry c n k1 v1 s)) = some v1 ∧
    getStateEntry c n k2 (setStateEntry c n k2 v2 (setStateEntry c n k1 v1 s)) = some v2 ∧
    (deleteStateEntry c n k1 (setStateEntry c n k2 v2 (setStateEntry c n k1 v1 s))).1 =
      some (n k1) ∧
    getStateEntry c n k2
      (deleteStateEntry c n k1 (setStateEntry c n k2 v2 (setStateEntry c n k1 v1 s))).2 =
      some v2 := by
  have hc2 : c k2 = c k1 := hc.symm
  have hn2 : n k2 ≠ n k1 := Ne.symm hn
  set e1 : StateEntry V := ⟨n k1, v1⟩ with he1
  set e2 : StateEntry V := ⟨n k2, v2⟩ with he2
  set old : StateEntryList V := (s (c k1)).getD [] with hold
  have hstore : setStateEntry c n k2 v2 (setStateEntry c n k1 v1 s) =
      updateStore s (c k1) (some ((old ++ [e1]) ++ [e2])) := by
    rw [setStateEntry_eq, setStateEntry_eq, hc2, updateStore_self, updateStore_idem]
    simp
  have hlook : setStateEntry c n k2 v2 (setStateEntry c n k1 v1 s) (c k1) =
      some ((old ++ [e1]) ++ [e2]) := by
    rw [hstore, updateStore_self]
  have hfilter1 : (((old ++ [e1]) ++ [e2]).filter
        (fun e => decide (e.normalizedKey = n k1))) =
      old.filter (fun e => decide (e.normalizedKey = n k1)) ++ [e1] := by
    simp [List.filter_append, he1, he2, hn2]
  have hfilter2 : (((old ++ [e1]) ++ [e2]).filter
        (fun e => decide (e.normalizedKey = n k2))) =
      old.filter (fun e => decide (e.normalizedKey = n k2)) ++ [e2] := by
    simp [List.filter_append, he1, he2, hn]
  have hcontains : bucketContains ((old ++ [e1]) ++ [e2]) (n k1) = true := by
    simp [bucketContains, he1]
  have hfilterdel : (((old ++ [e1]) ++ [e2]).filter
        (fun e => e.normalizedKey != n k1)) =
      old.filter (fun e => e.normalizedKey != n k1) ++ [e2] := by
    simp [List.filter_append, he1, he2, hn2]
  have hdel : deleteStateEntry c n k1
        (setStateEntry c n k2 v2 (setStateEntry c n k1 v1 s)) =
      (some (n k1),
        updateStore (setStateEntry c n k2 v2 (setStateEntry c n k1 v1 s)) (c k1)
          (some (old.filter (fun e => e.normalizedKey != n k1) ++ [e2]))) := by
    rw [deleteStateEntry_of_some hlook, if_pos hcontains, hfilterdel]
    have hne : (old.filter (fun e => e.normalizedKey != n k1) ++ [e2]).isEmpty =
        false := by
      simp
    rw [hne]
    simp
  refine ⟨?_, ?_, ?_, ?_⟩
  · rw [getStateEntry_eq, hlook, Option.getD_some, hfilter1]
    exact insertAll_concat_self _ _ e1
  · rw [getStateEntry_eq, hc2, hlook, Option.getD_some, hfilter2]
    exact insertAll_concat_self _ _ e2
  · rw [hdel]
  · rw [hdel, getStateEntry_eq]
    simp only [hc2, updateStore_self, Option.getD_some, List.filter_append]
    have hsingle : ([e2].filter (fun e => decide (e.normalizedKey = n k2))) = [e2] := by
      simp [he2]
    rw [hsingle]
    exact insertAll_concat_self _ _ e2

/-! ## Toy addressers for the concrete witnesses and counterexamples.
The context is generic over any `Addresser<K>` implementation, so a
collision witness may fix an addresser whose `compute` is constant. -/

/-- Toy `compute`: every key maps to the single address `['a']`. -/
def addrConst : Nat → Addr := fun _ => ['a']

/-- Toy `normalize`: key `1` to `"x"`, every other key to `"y"`. -/
def nameToy : Nat → String := fun k => if k = 1 then "x" else "y"

/-- Toy `compute` with distinct addresses: key `1` to `['a']`, others to
`['b']`. -/
def addrSplit : Nat → Addr := fun k => if k = 1 then ['a'] else ['b']

/-- Witness for C5 at the toy colliding addresser, two keys, values `10` and
`20`, from the empty store. -/
theorem C5_collision_coexistence_witness :
    nameToy 1 ≠ nameToy 2 ∧ addrConst 1 = addrConst 2 ∧
    (getStateEntry addrConst nameToy 1
        (setStateEntry addrConst nameToy 2 20
          (setStateEntry addrConst nameToy 1 10 emptyStore)) = some 10 ∧
      getStateEntry addrConst nameToy 2
        (setStateEntry addrConst nameToy 2 20
          (setStateEntry addrConst nameToy 1 10 emptyStore)) = some 20 ∧
      (deleteStateEntry addrConst nameToy 1
        (setStateEntry addrConst nameToy 2 20
          (setStateEntry addrConst nameToy 1 10 emptyStore))).1 = some (nameToy 1) ∧
      getStateEntry addrConst nameToy 2
        (deleteStateEntry addrConst nameToy 1
          (setStateEntry addrConst nameToy 2 20
            (setStateEntry addrConst nameToy 1 10 emptyStore))).2 = some 20) :=
  ⟨by decide, rfl,
    C5_collision_coexistence addrConst nameToy 1 2 10 20 emptyStore (by decide) rfl⟩

/-! ## C9: idempotent delete -/

theorem bucketContains_eq_false_iff {V : Type} (l : StateEntryList V) (x : String) :
    bucketContains l x = false ↔ ∀ e ∈ l, e.normalizedKey ≠ x := by
  simp [bucketContains]

theorem filter_eq_nil_of_not_contains {V : Type} {l : StateEntryList V} {x : String}
    (h : bucketContains l x = false) :
    l.filter (fun e => decide (e.normalizedKey = x)) = [] := by
  rw [List.filter_eq_nil_iff]
  intro e he
  simpa using (bucketContains_eq_false_iff l x).mp h e he

theorem bucketContains_filter_ne {V : Type} (l : StateEntryList V) (x : String) :
    bucketContains (l.filter (fun e => e.normalizedKey != x)) x = false := by
  rw [bucketContains_eq_false_iff]
  intro e he
  have := List.of_mem_filter he
  simpa using this

/-- Rust `get_state_entry` returns `none` when the bucket at the key's address has
no record with the key's normalized key (or is absent). -/
theorem getStateEntry_none_of_not_contains {K V : Type} (c : K → Addr)
    (n : K → String) (k : K) (s : Store V)
    (h : bucketContains ((s (c k)).getD []) (n k) = false) :
    getStateEntry c n k s = none := by
  rw [getStateEntry_eq, filter_eq_nil_of_not_contains h]
  rfl

/-- C9: from any store, `delete_state_entry k` returns `some (normalize k)`
exactly when a record with `normalize k` is present at `compute k` (and
`none`, leaving the store unchanged, when the bucket is absent or has no
matching record); a second delete of the same key then returns `none`, and a
`get_state_entry k` after the delete returns `none`. -/
theorem C9_idempotent_delete {K V : Type} (c : K → Addr) (n : K → String)
    (k : K) (s : Store V) :
    (bucketContains ((s (c k)).getD []) (n k) = true →
      (deleteStateEntry c n k s).1 = some (n k)) ∧
    (bucketContains ((s (c k)).getD []) (n k) = false →
      (deleteStateEntry c n k s).1 = none ∧ (deleteStateEntry c n k s).2 = s) ∧
    (deleteStateEntry c n k (deleteStateEntry c n k s).2).1 = none ∧
    getStateEntry c n k (deleteStateEntry c n k s).2 = none := by
  rcases h : s (c k) with _ | l
  · have hd1 : (deleteStateEntry c n k s).1 = none := by
      rw [deleteStateEntry_of_none h]
    have hd2 : (deleteStateEntry c n k s).2 = s := by
      rw [deleteStateEntry_of_none h]
    refine ⟨?_, fun _ => ⟨hd1, hd2⟩, ?_, ?_⟩
    · intro hcon
      simp [bucketContains] at hcon
    · rw [hd2]
      exact hd1
    · rw [hd2]
      exact getStateEntry_none_of_not_contains c n k s (by simp [h, bucketContains])
  · have hgd : (s (c k)).getD [] = l := by rw [h]; rfl
    by_cases hb : bucketContains l (n k) = true
    · by_cases he : (l.filter (fun e => e.normalizedKey != n k)).isEmpty = true
      · have hd1 : (deleteStateEntry c n k s).1 = some (n k) := by
          rw [deleteStateEntry_of_some h, if_pos hb, if_pos he]
        have hd2 : (deleteStateEntry c n k s).2 = updateStore s (c k) none := by
          rw [deleteStateEntry_of_some h, if_pos hb, if_pos he]
        have hlook2 : (updateStore s (c k) none) (c k) = none := updateStore_self ..
        refine ⟨fun _ => hd1, ?_, ?_, ?_⟩
        · intro hcon
          simp only [Option.getD_some] at hcon
          simp [hb] at hcon
        · rw [hd2]
          rw [deleteStateEntry_of_none hlook2]
        · rw [hd2]
          exact getStateEntry_none_of_not_contains c n k _
            (by simp [hlook2, bucketContains])
      · have hd1 : (deleteStateEntry c n k s).1 = some (n k) := by
          rw [deleteStateEntry_of_some h, if_pos hb, if_neg he]
        have hd2 : (deleteStateEntry c n k s).2 =
            updateStore s (c k) (some (l.filter (fun e => e.normalizedKey != n k))) := by
          rw [deleteStateEntry_of_some h, if_pos hb, if_neg he]
        have hlook2 : (updateStore s (c k)
            (some (l.filter (fun e => e.normalizedKey != n k)))) (c k) =
            some (l.filter (fun e => e.normalizedKey != n k)) := updateStore_self ..
        have hnc : bucketContains (l.filter (fun e => e.normalizedKey != n k)) (n k) =
            false := bucketContains_filter_ne l (n k)
        refine ⟨fun _ => hd1, ?_, ?_, ?_⟩
        · intro hcon
          simp only [Option.getD_some] at hcon
          simp [hb] at hcon
        · rw [hd2]
          rw [deleteStateEntry_of_some hlook2, if_neg (by simp [hnc])]
        · rw [hd2]
          exact getStateEntry_none_of_not_contains c n k _ (by rw [hlook2]; exact hnc)
    · have hb' : bucketContains l (n k) = false := by
        cases hx : bucketContains l (n k)
        · rfl
        · exact absurd hx hb
      have hd1 : (deleteStateEntry c n k s).1 = none := by
        rw [deleteStateEntry_of_some h, if_neg (by simp [hb'])]
      have hd2 : (deleteStateEntry c n k s).2 = s := by
        rw [deleteStateEntry_of_some h, if_neg (by simp [hb'])]
      refine ⟨?_, fun _ => ⟨hd1, hd2⟩, ?_, ?_⟩
      · intro hcon
        simp only [Option.getD_some] at hcon
        simp [hb'] at hcon
      · rw [hd2]
        exact hd1
      · rw [hd2]
        exact getStateEntry_none_of_not_contains c n k s (by rw [hgd]; exact hb')

/-! ## Sequences of operations and store invariants (C2, C10) -/

/-- One public mutation of the key-value context.  The single-entry forms
`set_state_entry` / `delete_state_entry` are one-element batches of these. -/
inductive Op (K V : Type) where
  | setE (entries : List (K × V))
  | delE (keys : List K)

def applyOp {K V : Type} (c : K → Addr) (n : K → String) :
    Op K V → Store V → Store V
  | .setE entries, s => setStateEntries c n entries s
  | .delE keys, s => (deleteStateEntries c n keys s).2

def runOps {K V : Type} (c : K → Addr) (n : K → String)
    (ops : List (Op K V)) (s : Store V) : Store V :=
  ops.foldl (fun st op => applyOp c n op st) s

/-- After the raw writes, an address holds its old payload or one of the
written buckets. -/
theorem applyWrites_lookup_cases {V : Type} (s : Store V)
    (ws : List (Addr × StateEntryList V)) (a : Addr) :
    (applyWrites s ws) a = s a ∨
      ∃ l, (a, l) ∈ ws ∧ (applyWrites s ws) a = some l := by
  induction ws generalizing s with
  | nil => exact Or.inl rfl
  | cons w t ih =>
    have hstep : applyWrites s (w :: t) = applyWrites (updateStore s w.1 (some w.2)) t := rfl
    rcases ih (updateStore s w.1 (some w.2)) with h | ⟨l, hm, he⟩
    · by_cases hw : a = w.1
      · refine Or.inr ⟨w.2, ?_, ?_⟩
        · subst hw
          exact List.mem_cons_self _ _
        · rw [hstep, h, hw, updateStore_self]
      · refine Or.inl ?_
        rw [hstep, h, updateStore_ne _ _ _ _ hw]
    · exact Or.inr ⟨l, List.mem_cons_of_mem _ hm, by rw [hstep]; exact he⟩

/-- After the raw deletes, an address holds its old payload or nothing. -/
theorem applyDeletes_lookup_cases {V : Type} (s : Store V) (ds : List Addr) (a : Addr) :
    (applyDeletes s ds) a = s a ∨ (applyDeletes s ds) a = none := by
  induction ds generalizing s with
  | nil => exact Or.inl rfl
  | cons d t ih =>
    have hstep : applyDeletes s (d :: t) = applyDeletes (updateStore s d none) t := rfl
    rcases ih (updateStore s d none) with h | h
    · by_cases hw : a = d
      · refine Or.inr ?_
        rw [hstep, h, hw, updateStore_self]
      · refine Or.inl ?_
        rw [hstep, h, updateStore_ne _ _ _ _ hw]
    · exact Or.inr (by rw [hstep]; exact h)

/-- The second component of `delete_state_entries`, unfolded. -/
theorem deleteStateEntries_snd {K V : Type} (c : K → Addr) (n : K → String)
    (keys : List K) (s : Store V) :
    (deleteStateEntries c n keys s).2 =
      applyWrites
        (applyDeletes s (deletePlan s (collectKeyMap (keys.map fun k => (n k, c k)))).deleteLists)
        (deletePlan s (collectKeyMap (keys.map fun k => (n k, c k)))).newEntryLists := rfl

/-- Every bucket that `delete_state_entries` rewrites is the non-empty filter
of a bucket of the pre-batch store. -/
theorem deletePlan_newEntryLists_mem {V : Type} (s : Store V)
    (km : List (String × Addr)) :
    ∀ w ∈ (deletePlan s km).newEntryLists,
      ∃ l nkey, s w.1 = some l ∧
        w.2 = l.filter (fun e => e.normalizedKey != nkey) ∧ w.2 ≠ [] := by
  induction km with
  | nil =>
    intro w hw
    simp [deletePlan] at hw
  | cons p rest ih =>
    intro w hw
    by_cases hq : ∃ l, s p.2 = some l
    · rcases hq with ⟨l, hq⟩
      simp only [deletePlan, hq] at hw
      by_cases hb : bucketContains l p.1 = true
      · rw [if_pos hb] at hw
        by_cases he : (l.filter (fun e => e.normalizedKey != p.1)).isEmpty = true
        · rw [if_pos he] at hw
          exact ih w hw
        · rw [if_neg he] at hw
          rcases List.mem_cons.mp hw with hw | hw
          · subst hw
            refine ⟨l, p.1, hq, rfl, ?_⟩
            intro hnil
            have hnil' : (l.filter (fun e => e.normalizedKey != p.1)) = [] := hnil
            rw [hnil'] at he
            exact he rfl
          · exact ih w hw
      · rw [if_neg hb] at hw
        exact ih w hw
    · have hq' : s p.2 = none := by
        cases hx : s p.2 with
        | none => rfl
        | some l => exact absurd ⟨l, hx⟩ hq
      simp only [deletePlan, hq'] at hw
      exact ih w hw

/-- Invariant (C10): no address of the store holds an empty bucket. -/
def NoEmptyBucketStore {V : Type} (s : Store V) : Prop :=
  ∀ a l, s a = some l → l ≠ []

theorem noEmpty_setStateEntries {K V : Type} (c : K → Addr) (n : K → String)
    (entries : List (K × V)) (s : Store V) (h : NoEmptyBucketStore s) :
    NoEmptyBucketStore (setStateEntries c n entries s) := by
  intro a l hl
  rcases applyWrites_lookup_cases s (setWrites c n entries s) a with hc | ⟨l', hm, he⟩
  · exact h a l (by rw [← hc]; exact hl)
  · have : setStateEntries c n entries s a = some l' := he
    rw [hl] at this
    injection this with hsome
    subst hsome
    rcases List.mem_map.mp hm with ⟨kv, _, hkv⟩
    have h2 : l = setBucket s (c kv.1) ⟨n kv.1, kv.2⟩ := by
      have := congrArg Prod.snd hkv
      simpa using this.symm
    rw [h2, setBucket_eq]
    simp

theorem noEmpty_deleteStateEntries {K V : Type} (c : K → Addr) (n : K → String)
    (keys : List K) (s : Store V) (h : NoEmptyBucketStore s) :
    NoEmptyBucketStore (deleteStateEntries c n keys s).2 := by
  intro a l hl
  rw [deleteStateEntries_snd] at hl
  rcases applyWrites_lookup_cases _ _ a with hc | ⟨l', hm, he⟩
  · rw [hc] at hl
    rcases applyDeletes_lookup_cases s _ a with hc2 | hc2
    · rw [hc2] at hl
      exact h a l hl
    · rw [hc2] at hl
      cases hl
  · rw [he] at hl
    injection hl with hsome
    subst hsome
    rcases deletePlan_newEntryLists_mem s _ _ hm with ⟨l0, nkey, _, _, hne⟩
    exact hne

theorem noEmpty_applyOp {K V : Type} (c : K → Addr) (n : K → String)
    (op : Op K V) (s : Store V) (h : NoEmptyBucketStore s) :
    NoEmptyBucketStore (applyOp c n op s) := by
  cases op with
  | setE entries => exact noEmpty_setStateEntries c n entries s h
  | delE keys => exact noEmpty_deleteStateEntries c n keys s h

theorem noEmpty_runOps {K V : Type} (c : K → Addr) (n : K → String)
    (ops : List (Op K V)) (s : Store V) (h : NoEmptyBucketStore s) :
    NoEmptyBucketStore (runOps c n ops s) := by
  induction ops generalizing s with
  | nil => exact h
  | cons op t ih => exact ih (applyOp c n op s) (noEmpty_applyOp c n op s h)

/-- C10: starting from the empty store, after any sequence of
`set_state_entries` / `delete_state_entries` batches (the single-entry forms
are one-element batches), no address holds a bucket with an empty record
list: every bucket handed to the raw set by `set_state_entries` ends with the
freshly appended record, and `delete_state_entries` routes an emptied bucket
to the raw delete list instead of writing it back. -/
theorem C10_no_empty_bucket {K V : Type} (c : K → Addr) (n : K → String)
    (ops : List (Op K V)) :
    NoEmptyBucketStore (runOps c n ops emptyStore) :=
  noEmpty_runOps c n ops emptyStore (fun _ _ hl => by cases hl)

/-! ## C2: bucket normalized-key uniqueness -/

/-- The normalized keys of a bucket, in record order. -/
def bucketKeys {V : Type} (l : StateEntryList V) : List String :=
  l.map (fun e => e.normalizedKey)

/-- The claimed invariant of C2: no two records in a stored bucket share a
normalized key. -/
def NoDupKeysStore {V : Type} (s : Store V) : Prop :=
  ∀ a l, s a = some l → (bucketKeys l).Nodup

/-- C2 fails on the code: setting the same natural key twice (values `10`
then `20`) appends a second record with the same normalized key `"x"` to the
bucket instead of replacing the stale one, so the claimed uniqueness
invariant does not hold for the resulting store. -/
theorem C2_set_twice_duplicate :
    (setStateEntry addrConst nameToy 1 20
        (setStateEntry addrConst nameToy 1 10 emptyStore)) (addrConst 1) =
      some [⟨nameToy 1, 10⟩, ⟨nameToy 1, 20⟩] ∧
    ¬ NoDupKeysStore (setStateEntry addrConst nameToy 1 20
        (setStateEntry addrConst nameToy 1 10 emptyStore)) := by
  constructor
  · decide
  · intro h
    have := h (addrConst 1) [⟨nameToy 1, 10⟩, ⟨nameToy 1, 20⟩] (by decide)
    revert this
    decide

/-! ## C1: batch versus sequential set/get -/

/-- Well-formedness of the store relative to one key (spec section 3): every
stored record carrying the key's normalized key lives in the bucket at the
key's computed address. -/
def KeyPlaced {K V : Type} (c : K → Addr) (n : K → String) (s : Store V) (k : K) :
    Prop :=
  ∀ a l, s a = some l → ∀ e ∈ l, e.normalizedKey = n k → a = c k

theorem getD_mem_placed {K V : Type} {c : K → Addr} {n : K → String}
    {s : Store V} {k : K} (hp : KeyPlaced c n s k) {a : Addr} (ha : a ≠ c k) :
    ∀ e ∈ (s a).getD [], e.normalizedKey ≠ n k := by
  intro e he hkey
  cases hx : s a with
  | none =>
    rw [hx] at he
    cases he
  | some l =>
    rw [hx] at he
    exact ha (hp a l hx e he hkey)

/-- The store written by a two-entry `set_state_entries` batch. -/
theorem setStateEntries_pair_eq {K V : Type} (c : K → Addr) (n : K → String)
    (k1 k2 : K) (v1 v2 : V) (s : Store V) :
    setStateEntries c n [(k1, v1), (k2, v2)] s =
      updateStore (updateStore s (c k1) (some ((s (c k1)).getD [] ++ [⟨n k1, v1⟩])))
        (c k2) (some ((s (c k2)).getD [] ++ [⟨n k2, v2⟩])) := by
  simp [setStateEntries, setWrites, applyWrites, setBucket_eq]

/-- C1, amended: the batch/sequential equivalence holds when the two keys
also compute distinct addresses (`c k1 ≠ c k2`), from any store that is
well-formed for the two keys: the batch result is exactly
`{n k1 ↦ v1, n k2 ↦ v2}`, the batch store equals the sequential store, and
the sequential per-key gets return the same values.  (When the addresses
collide the equivalence fails, see the counterexample.) -/
theorem C1_batch_sequential_equivalence {K V : Type} (c : K → Addr) (n : K → String)
    (k1 k2 : K) (v1 v2 : V) (s : Store V)
    (hn : n k1 ≠ n k2) (ha : c k1 ≠ c k2)
    (hp1 : KeyPlaced c n s k1) (hp2 : KeyPlaced c n s k2) :
    getStateEntries c n [k1, k2] (setStateEntries c n [(k1, v1), (k2, v2)] s)
      (n k1) = some v1 ∧
    getStateEntries c n [k1, k2] (setStateEntries c n [(k1, v1), (k2, v2)] s)
      (n k2) = some v2 ∧
    (∀ x, x ≠ n k1 → x ≠ n k2 →
      getStateEntries c n [k1, k2] (setStateEntries c n [(k1, v1), (k2, v2)] s)
        x = none) ∧
    setStateEntries c n [(k1, v1), (k2, v2)] s =
      setStateEntry c n k2 v2 (setStateEntry c n k1 v1 s) ∧
    getStateEntry c n k1 (setStateEntry c n k2 v2 (setStateEntry c n k1 v1 s)) =
      some v1 ∧
    getStateEntry c n k2 (setStateEntry c n k2 v2 (setStateEntry c n k1 v1 s)) =
      some v2 := by
  have ha2 : c k2 ≠ c k1 := Ne.symm ha
  have hn2 : n k2 ≠ n k1 := Ne.symm hn
  set e1 : StateEntry V := ⟨n k1, v1⟩ with he1
  set e2 : StateEntry V := ⟨n k2, v2⟩ with he2
  set old1 : StateEntryList V := (s (c k1)).getD [] with hold1
  set old2 : StateEntryList V := (s (c k2)).getD [] with hold2
  have hseq : setStateEntry c n k2 v2 (setStateEntry c n k1 v1 s) =
      updateStore (updateStore s (c k1) (some (old1 ++ [e1]))) (c k2)
        (some (old2 ++ [e2])) := by
    rw [setStateEntry_eq, setStateEntry_eq, updateStore_ne _ _ _ _ ha2]
  have hbatch : setStateEntries c n [(k1, v1), (k2, v2)] s =
      updateStore (updateStore s (c k1) (some (old1 ++ [e1]))) (c k2)
        (some (old2 ++ [e2])) := setStateEntries_pair_eq c n k1 k2 v1 v2 s
  have hlook1 : setStateEntries c n [(k1, v1), (k2, v2)] s (c k1) =
      some (old1 ++ [e1]) := by
    rw [hbatch, updateStore_ne _ _ _ _ ha, updateStore_self]
  have hlook2 : setStateEntries c n [(k1, v1), (k2, v2)] s (c k2) =
      some (old2 ++ [e2]) := by
    rw [hbatch, updateStore_self]
  have hflat : flattenStateEntries (setStateEntries c n [(k1, v1), (k2, v2)] s)
      [c k1, c k2] = (old1 ++ [e1]) ++ (old2 ++ [e2]) := by
    rw [flattenStateEntries_pair_ne _ ha, hlook1, hlook2]
    rfl
  have hmap : getStateEntries c n [k1, k2]
      (setStateEntries c n [(k1, v1), (k2, v2)] s) =
      insertAll (fun _ => none)
        (((old1 ++ [e1]) ++ (old2 ++ [e2])).filter
          (fun e => [n k1, n k2].contains e.normalizedKey)) := by
    rw [getStateEntries]
    rw [show ([k1, k2].map c) = [c k1, c k2] from rfl,
      show ([k1, k2].map n) = [n k1, n k2] from rfl, hflat]
  have hp1' : ∀ e ∈ old2, e.normalizedKey ≠ n k1 := by
    intro e he
    exact getD_mem_placed hp1 ha2 e he
  have hp2' : ∀ e ∈ old1, e.normalizedKey ≠ n k2 := by
    intro e he
    exact getD_mem_placed hp2 ha e he
  have hfsplit : (((old1 ++ [e1]) ++ (old2 ++ [e2])).filter
        (fun e => [n k1, n k2].contains e.normalizedKey)) =
      (old1.filter (fun e => [n k1, n k2].contains e.normalizedKey) ++ [e1]) ++
        (old2.filter (fun e => [n k1, n k2].contains e.normalizedKey) ++ [e2]) := by
    simp only [List.filter_append]
    congr 1 <;> · congr 1; simp [he1, he2, List.contains, List.elem_eq_mem]
  refine ⟨?_, ?_, ?_, by rw [hbatch, hseq], ?_, ?_⟩
  · rw [hmap, hfsplit, insertAll_append]
    rw [insertAll_of_forall_ne]
    · exact insertAll_concat_self _ _ e1
    · intro e he
      rcases List.mem_append.mp he with he | he
      · exact hp1' e (List.mem_of_mem_filter he)
      · rw [List.mem_singleton.mp he, he2]
        exact hn2
  · rw [hmap, hfsplit, ← List.append_assoc]
    exact insertAll_concat_self _ _ e2
  · intro x hx1 hx2
    rw [hmap, insertAll_of_forall_ne]
    intro e he
    have hmem := List.mem_filter.mp he
    have : e.normalizedKey ∈ [n k1, n k2] := by
      have := hmem.2
      simpa [List.contains, List.elem_eq_mem] using this
    rcases List.mem_cons.mp this with h | h
    · rw [h]; exact fun hc => hx1 hc.symm
    · rw [List.mem_singleton.mp h]; exact fun hc => hx2 hc.symm
  · rw [getStateEntry_eq, hseq, updateStore_ne _ _ _ _ ha, updateStore_self,
      Option.getD_some, List.filter_append]
    have h1 : ([e1].filter (fun e => decide (e.normalizedKey = n k1))) = [e1] := by
      simp [he1]
    rw [h1]
    exact insertAll_concat_self _ _ e1
  · rw [getStateEntry_eq, hseq, updateStore_self, Option.getD_some,
      List.filter_append]
    have h2 : ([e2].filter (fun e => decide (e.normalizedKey = n k2))) = [e2] := by
      simp [he2]
    rw [h2]
    exact insertAll_concat_self _ _ e2

/-- Witness for the amended C1 at the split toy addresser (distinct
addresses), keys `1, 2`, values `10, 20`, from the empty store. -/
theorem C1_batch_sequential_equivalence_witness :
    nameToy 1 ≠ nameToy 2 ∧ addrSplit 1 ≠ addrSplit 2 ∧
    KeyPlaced addrSplit nameToy (emptyStore (V := Nat)) 1 ∧
    KeyPlaced addrSplit nameToy (emptyStore (V := Nat)) 2 ∧
    (getStateEntries addrSplit nameToy [1, 2]
        (setStateEntries addrSplit nameToy [(1, 10), (2, 20)] emptyStore)
        (nameToy 1) = some 10 ∧
      getStateEntries addrSplit nameToy [1, 2]
        (setStateEntries addrSplit nameToy [(1, 10), (2, 20)] emptyStore)
        (nameToy 2) = some 20 ∧
      (∀ x, x ≠ nameToy 1 → x ≠ nameToy 2 →
        getStateEntries addrSplit nameToy [1, 2]
          (setStateEntries addrSplit nameToy [(1, 10), (2, 20)] emptyStore)
          x = none) ∧
      setStateEntries addrSplit nameToy [(1, 10), (2, 20)] emptyStore =
        setStateEntry addrSplit nameToy 2 20
          (setStateEntry addrSplit nameToy 1 10 emptyStore) ∧
      getStateEntry addrSplit nameToy 1
        (setStateEntry addrSplit nameToy 2 20
          (setStateEntry addrSplit nameToy 1 10 emptyStore)) = some 10 ∧
      getStateEntry addrSplit nameToy 2
        (setStateEntry addrSplit nameToy 2 20
          (setStateEntry addrSplit nameToy 1 10 emptyStore)) = some 20) :=
  ⟨by decide, by decide, fun _ _ hl => absurd hl (by simp [emptyStore]),
    fun _ _ hl => absurd hl (by simp [emptyStore]),
    C1_batch_sequential_equivalence addrSplit nameToy 1 2 10 20 emptyStore
      (by decide) (by decide)
      (fun _ _ hl => absurd hl (by simp [emptyStore]))
      (fun _ _ hl => absurd hl (by simp [emptyStore]))⟩

/-- C1 as stated is false when the two keys collide on one computed address
(a case the claim explicitly includes): with the constant toy addresser the
batch write list carries the shared address twice, the last raw write wins,
and key 1's record is lost, unlike the sequential sets. -/
theorem C1_counterexample :
    nameToy 1 ≠ nameToy 2 ∧ addrConst 1 = addrConst 2 ∧
    getStateEntries addrConst nameToy [1, 2]
      (setStateEntries addrConst nameToy [(1, 10), (2, 20)] emptyStore)
      (nameToy 1) = none ∧
    (setStateEntries addrConst nameToy [(1, 10), (2, 20)] emptyStore)
      (addrConst 1) ≠
      (setStateEntry addrConst nameToy 2 20
        (setStateEntry addrConst nameToy 1 10 emptyStore)) (addrConst 1) := by
  refine ⟨by decide, rfl, by decide, by decide⟩

/-! ## C3: shape of the raw write lists of the batch operations -/

theorem collectKeyMap_foldl_fst_nodup (l acc : List (String × Addr))
    (h : (acc.map Prod.fst).Nodup) :
    ((l.foldl (fun acc p => acc.filter (fun q => q.1 != p.1) ++ [p]) acc).map
      Prod.fst).Nodup := by
  induction l generalizing acc with
  | nil => exact h
  | cons p t ih =>
    refine ih _ ?_
    rw [List.map_append]
    rw [List.nodup_append]
    refine ⟨?_, by simp, ?_⟩
    · exact h.sublist (List.Sublist.map _ (List.filter_sublist acc))
    · intro x hx
      rcases List.mem_map.mp hx with ⟨q, hq, hqx⟩
      have := List.of_mem_filter hq
      simp only [List.map_cons, List.map_nil, List.mem_singleton]
      intro hxp
      rw [← hqx] at hxp
      rw [hxp] at this
      simp at this

/-- The `key_map` of `delete_state_entries` holds at most one pair per
distinct normalized key. -/
theorem collectKeyMap_fst_nodup (l : List (String × Addr)) :
    ((collectKeyMap l).map Prod.fst).Nodup :=
  collectKeyMap_foldl_fst_nodup l [] (by simp)

/-- C3, amended: the batch operations do not group writes by address.
`set_state_entries` hands the raw set exactly one `(address, bucket)` pair
per key of the batch, carrying that key's computed address — so the write
list holds one address per distinct address only when the keys' computed
addresses are pairwise distinct, and a shared address occurs once per
colliding key otherwise.  `delete_state_entries` builds its `key_map` with at
most one entry per distinct normalized key.  (One raw read call per batch is
visible in the definitions: `setWrites` and `deletePlan` consult only the
pre-batch store.) -/
theorem C3_per_key_writes {K V : Type} (c : K → Addr) (n : K → String)
    (entries : List (K × V)) (keys : List K) (s : Store V) :
    (setWrites c n entries s).map Prod.fst = entries.map (fun kv => c kv.1) ∧
    ((entries.map (fun kv => c kv.1)).Nodup →
      ((setWrites c n entries s).map Prod.fst).Nodup) ∧
    ((collectKeyMap (keys.map fun k => (n k, c k))).map Prod.fst).Nodup := by
  have hfst : (setWrites c n entries s).map Prod.fst =
      entries.map (fun kv => c kv.1) := by
    simp [setWrites, List.map_map, Function.comp]
  exact ⟨hfst, fun h => by rw [hfst]; exact h, collectKeyMap_fst_nodup _⟩

/-- Witness for the amended C3 at the split toy addresser. -/
theorem C3_per_key_writes_witness :
    ((setWrites addrSplit nameToy [(1, 10), (2, 20)] emptyStore).map Prod.fst =
      [(1, 10), (2, 20)].map (fun kv => addrSplit kv.1) ∧
    (([(1, 10), (2, 20)].map (fun kv => addrSplit kv.1)).Nodup →
      ((setWrites addrSplit nameToy [(1, 10), (2, 20)] emptyStore).map
        Prod.fst).Nodup) ∧
    ((collectKeyMap ([1, 2].map fun k => (nameToy k, addrSplit k))).map
      Prod.fst).Nodup) :=
  C3_per_key_writes addrSplit nameToy [(1, 10), (2, 20)] [1, 2] emptyStore

/-- C3 as stated is false: with the constant toy addresser, a two-key batch
hands the raw set two pairs carrying the same computed address (one per key),
not at most one pair per distinct address. -/
theorem C3_counterexample :
    (setWrites addrConst nameToy [(1, 10), (2, 20)] emptyStore).map Prod.fst =
      [addrConst 1, addrConst 2] ∧
    addrConst 1 = addrConst 2 ∧
    ¬ ((setWrites addrConst nameToy [(1, 10), (2, 20)]
        (emptyStore (V := Nat))).map Prod.fst).Nodup := by
  refine ⟨by decide, rfl, by decide⟩

/-! ## Wrapped `usize` arithmetic of the addressers -/

theorem usizeMod_eq : usizeMod = 18446744073709551616 := by norm_num [usizeMod]

theorem addressLength_eq : addressLength = 70 := rfl

theorem wrapSub_small {a b : Nat} (hb : b ≤ a) (ha : a < usizeMod) :
    wrapSub a b = a - b := by
  unfold wrapSub
  rw [usizeMod_eq] at *
  omega

theorem wrapAdd_small {a b : Nat} (h : a + b < usizeMod) : wrapAdd a b = a + b := by
  unfold wrapAdd
  rw [usizeMod_eq] at *
  omega

/-- The re-check in `DoubleKeyHashAddresser::compute` is a tautology: with
the wrapped derived second length, the checked sum is `ADDRESS_LENGTH` for
every prefix length and first length. -/
theorem double_guard (p f : Nat) :
    wrapAdd (wrapAdd p f) (wrapSub (wrapSub addressLength p) f) = addressLength := by
  unfold wrapAdd wrapSub addressLength
  rw [usizeMod_eq]
  omega

/-- The re-check in `TripleKeyHashAddresser::compute` is likewise a
tautology. -/
theorem triple_guard (p f s : Nat) :
    wrapAdd (wrapAdd (wrapAdd p f) s)
      (wrapSub (wrapSub addressLength p) (wrapAdd f s)) = addressLength := by
  unfold wrapAdd wrapSub addressLength
  rw [usizeMod_eq]
  omega

/-! ## C6: addresser error semantics -/

/-- The demonstration prefix `"prefix"` of the repository's tests. -/
def pfxDemo : List Char := "prefix".data

/-- The stand-in digest satisfies the SHA-512 output shape. -/
theorem constDigest_spec :
    ∀ x, (constDigest x).length = 128 ∧ ∀ ch ∈ constDigest x, isHexChar ch = true :=
  fun _ =>
    ⟨by simp [constDigest], fun ch h => by
      rw [List.eq_of_mem_replicate h]
      decide⟩

/-- C6 fails on the code: no addresser variant can ever return an
`AddresserError` from `compute` — the re-checked sum is identically
`ADDRESS_LENGTH` because the derived last segment length is the wrapped
remainder — and a configuration whose lengths cannot sum to 70
(`DoubleKeyHashAddresser::new("prefix", Some(65))`) makes `compute` panic on
an out-of-range slice of the 128-character digest instead of returning the
error. -/
theorem C6_no_addresser_error (digest : String → List Char)
    (hdig : ∀ x, (digest x).length = 128) :
    (∀ (a : KeyHashAddresser) (key : String) (m : String),
      a.compute digest key ≠ .addresserError m) ∧
    (∀ (a : DoubleKeyHashAddresser) (keys : String × String) (m : String),
      a.compute digest keys ≠ .addresserError m) ∧
    (∀ (a : TripleKeyHashAddresser) (keys : String × String × String) (m : String),
      a.compute digest keys ≠ .addresserError m) ∧
    (DoubleKeyHashAddresser.new pfxDemo (some 65)).compute digest ("a", "b") =
      .panicked := by
  refine ⟨?_, ?_, ?_, ?_⟩
  · intro a key m
    unfold KeyHashAddresser.compute
    cases h : hashTrunc digest (wrapSub addressLength a.pfx.length) key <;> simp [h]
  · intro a keys m
    simp only [DoubleKeyHashAddresser.compute]
    rw [if_neg (fun h => h (double_guard a.pfx.length a.firstHashLength))]
    cases h1 : hashTrunc digest a.firstHashLength keys.1 <;>
      cases h2 : hashTrunc digest
        (wrapSub (wrapSub addressLength a.pfx.length) a.firstHashLength) keys.2 <;>
      simp [h1, h2]
  · intro a keys m
    simp only [TripleKeyHashAddresser.compute]
    rw [if_neg (fun h => h (triple_guard a.pfx.length a.firstHashLength
      a.secondHashLength))]
    cases h1 : hashTrunc digest a.firstHashLength keys.1 <;>
      cases h2 : hashTrunc digest a.secondHashLength keys.2.1 <;>
      cases h3 : hashTrunc digest (a.lastHashLength) keys.2.2 <;>
      simp [h1, h2, h3]
  · have hnew : DoubleKeyHashAddresser.new pfxDemo (some 65) = ⟨pfxDemo, 65⟩ := rfl
    rw [hnew]
    simp only [DoubleKeyHashAddresser.compute]
    rw [if_neg (fun h => h (double_guard pfxDemo.length 65))]
    have hsec : wrapSub (wrapSub addressLength pfxDemo.length) 65 =
        usizeMod - 1 := by decide
    have ha : hashTrunc digest 65 "a" = some ((digest "a").take 65) := by
      unfold hashTrunc
      rw [if_pos (by rw [hdig]; norm_num)]
    have hb : hashTrunc digest (usizeMod - 1) "b" = none := by
      unfold hashTrunc
      rw [if_neg]
      rw [hdig]
      rw [usizeMod_eq]
      norm_num
    rw [hsec, ha, hb]

/-- Witness for C6 at the stand-in digest. -/
theorem C6_no_addresser_error_witness :
    (∀ x, (constDigest x).length = 128) ∧
    ((∀ (a : KeyHashAddresser) (key : String) (m : String),
      a.compute constDigest key ≠ .addresserError m) ∧
    (∀ (a : DoubleKeyHashAddresser) (keys : String × String) (m : String),
      a.compute constDigest keys ≠ .addresserError m) ∧
    (∀ (a : TripleKeyHashAddresser) (keys : String × String × String) (m : String),
      a.compute constDigest keys ≠ .addresserError m) ∧
    (DoubleKeyHashAddresser.new pfxDemo (some 65)).compute constDigest ("a", "b") =
      .panicked) :=
  ⟨fun x => (constDigest_spec x).1,
    C6_no_addresser_error constDigest (fun x => (constDigest_spec x).1)⟩

/-! ## C7: shape of computed addresses under valid configurations -/

theorem hashTrunc_eq_of_le {digest : String → List Char} {len : Nat} {key : String}
    (h : len ≤ (digest key).length) :
    hashTrunc digest len key = some ((digest key).take len) := by
  unfold hashTrunc
  rw [if_pos h]

theorem take_length_of_le {l : List Char} {k : Nat} (h : k ≤ l.length) :
    (l.take k).length = k := by
  rw [List.length_take]
  omega

theorem hex_take {l : List Char} (hl : ∀ ch ∈ l, isHexChar ch = true) (k : Nat) :
    ∀ ch ∈ l.take k, isHexChar ch = true :=
  fun ch hch => hl ch (List.take_subset k l hch)

/-- Rust `KeyHashAddresser::compute` under a valid configuration. -/
theorem keyHashCompute_shape (digest : String → List Char)
    (hdig : ∀ x, (digest x).length = 128 ∧ ∀ ch ∈ digest x, isHexChar ch = true)
    (a : KeyHashAddresser) (hp : a.pfx.length ≤ 70)
    (hphex : ∀ ch ∈ a.pfx, isHexChar ch = true) (key : String) :
    a.compute digest key = .ok (a.pfx ++ (digest key).take (70 - a.pfx.length)) ∧
    (a.pfx ++ (digest key).take (70 - a.pfx.length)).length = 70 ∧
    ∀ ch ∈ a.pfx ++ (digest key).take (70 - a.pfx.length), isHexChar ch = true := by
  have h128 := (hdig key).1
  have hws : wrapSub addressLength a.pfx.length = 70 - a.pfx.length := by
    rw [addressLength_eq]
    exact wrapSub_small hp (by rw [usizeMod_eq]; norm_num)
  have hle : 70 - a.pfx.length ≤ (digest key).length := by
    rw [h128]
    omega
  refine ⟨?_, ?_, ?_⟩
  · simp only [KeyHashAddresser.compute]
    rw [hws, hashTrunc_eq_of_le hle]
  · rw [List.length_append, take_length_of_le hle]
    omega
  · intro ch hch
    rcases List.mem_append.mp hch with h | h
    · exact hphex ch h
    · exact hex_take (hdig key).2 _ ch h

/-- Rust `DoubleKeyHashAddresser::compute` under a valid configuration
(`prefix.len() + first_hash_length ≤ 70`, so the derived second length makes
the total exactly 70). -/
theorem doubleCompute_shape (digest : String → List Char)
    (hdig : ∀ x, (digest x).length = 128 ∧ ∀ ch ∈ digest x, isHexChar ch = true)
    (a : DoubleKeyHashAddresser) (hp : a.pfx.length + a.firstHashLength ≤ 70)
    (hphex : ∀ ch ∈ a.pfx, isHexChar ch = true) (keys : String × String) :
    a.compute digest keys =
      .ok (a.pfx ++ (digest keys.1).take a.firstHashLength ++
        (digest keys.2).take (70 - a.pfx.length - a.firstHashLength)) ∧
    (a.pfx ++ (digest keys.1).take a.firstHashLength ++
      (digest keys.2).take (70 - a.pfx.length - a.firstHashLength)).length = 70 ∧
    ∀ ch ∈ a.pfx ++ (digest keys.1).take a.firstHashLength ++
      (digest keys.2).take (70 - a.pfx.length - a.firstHashLength),
      isHexChar ch = true := by
  have h1 := (hdig keys.1).1
  have h2 := (hdig keys.2).1
  have hMlt : (70 : Nat) < usizeMod := by rw [usizeMod_eq]; norm_num
  have hws1 : wrapSub addressLength a.pfx.length = 70 - a.pfx.length := by
    rw [addressLength_eq]
    exact wrapSub_small (by omega) hMlt
  have hws2 : wrapSub (70 - a.pfx.length) a.firstHashLength =
      70 - a.pfx.length - a.firstHashLength := by
    exact wrapSub_small (by omega) (by rw [usizeMod_eq]; omega)
  have hle1 : a.firstHashLength ≤ (digest keys.1).length := by
    rw [h1]
    omega
  have hle2 : 70 - a.pfx.length - a.firstHashLength ≤ (digest keys.2).length := by
    rw [h2]
    omega
  refine ⟨?_, ?_, ?_⟩
  · simp only [DoubleKeyHashAddresser.compute]
    rw [if_neg (fun h => h (double_guard a.pfx.length a.firstHashLength))]
    rw [hws1, hws2, hashTrunc_eq_of_le hle1, hashTrunc_eq_of_le hle2]
  · rw [List.length_append, List.length_append, take_length_of_le hle1,
      take_length_of_le hle2]
    omega
  · intro ch hch
    rcases List.mem_append.mp hch with h | h
    · rcases List.mem_append.mp h with h | h
      · exact hphex ch h
      · exact hex_take (hdig keys.1).2 _ ch h
    · exact hex_take (hdig keys.2).2 _ ch h

/-- Rust `TripleKeyHashAddresser::compute` under a valid configuration
(`prefix.len() + first + second ≤ 70`, the derived last length absorbing the
remainder). -/
theorem tripleCompute_shape (digest : String → List Char)
    (hdig : ∀ x, (digest x).length = 128 ∧ ∀ ch ∈ digest x, isHexChar ch = true)
    (a : TripleKeyHashAddresser)
    (hp : a.pfx.length + a.firstHashLength + a.secondHashLength ≤ 70)
    (hphex : ∀ ch ∈ a.pfx, isHexChar ch = true) (keys : String × String × String) :
    a.compute digest keys =
      .ok (a.pfx ++ (digest keys.1).take a.firstHashLength ++
        (digest keys.2.1).take a.secondHashLength ++
        (digest keys.2.2).take
          (70 - a.pfx.length - a.firstHashLength - a.secondHashLength)) ∧
    (a.pfx ++ (digest keys.1).take a.firstHashLength ++
      (digest keys.2.1).take a.secondHashLength ++
      (digest keys.2.2).take
        (70 - a.pfx.length - a.firstHashLength - a.secondHashLength)).length = 70 ∧
    ∀ ch ∈ a.pfx ++ (digest keys.1).take a.firstHashLength ++
      (digest keys.2.1).take a.secondHashLength ++
      (digest keys.2.2).take
        (70 - a.pfx.length - a.firstHashLength - a.secondHashLength),
      isHexChar ch = true := by
  have h1 := (hdig keys.1).1
  have h2 := (hdig keys.2.1).1
  have h3 := (hdig keys.2.2).1
  have hMlt : (70 : Nat) < usizeMod := by rw [usizeMod_eq]; norm_num
  have hwa : wrapAdd a.firstHashLength a.secondHashLength =
      a.firstHashLength + a.secondHashLength :=
    wrapAdd_small (by rw [usizeMod_eq]; omega)
  have hlast : a.lastHashLength =
      70 - a.pfx.length - a.firstHashLength - a.secondHashLength := by
    unfold TripleKeyHashAddresser.lastHashLength
    rw [addressLength_eq, hwa,
      wrapSub_small (by omega) hMlt,
      wrapSub_small (by omega) (by rw [usizeMod_eq]; omega)]
    omega
  have hle1 : a.firstHashLength ≤ (digest keys.1).length := by
    rw [h1]
    omega
  have hle2 : a.secondHashLength ≤ (digest keys.2.1).length := by
    rw [h2]
    omega
  have hle3 : 70 - a.pfx.length - a.firstHashLength - a.secondHashLength ≤
      (digest keys.2.2).length := by
    rw [h3]
    omega
  refine ⟨?_, ?_, ?_⟩
  · simp only [TripleKeyHashAddresser.compute]
    rw [if_neg (fun h => h (triple_guard a.pfx.length a.firstHashLength
      a.secondHashLength))]
    rw [hlast, hashTrunc_eq_of_le hle1, hashTrunc_eq_of_le hle2,
      hashTrunc_eq_of_le hle3]
  · rw [List.length_append, List.length_append, List.length_append,
      take_length_of_le hle1, take_length_of_le hle2, take_length_of_le hle3]
    omega
  · intro ch hch
    rcases List.mem_append.mp hch with h | h
    · rcases List.mem_append.mp h with h | h
      · rcases List.mem_append.mp h with h | h
        · exact hphex ch h
        · exact hex_take (hdig keys.1).2 _ ch h
      · exact hex_take (hdig keys.2.1).2 _ ch h
    · exact hex_take (hdig keys.2.2).2 _ ch h

/-- C7: for every valid addresser configuration (prefix and configured
segment lengths summing to 70, hexadecimal prefix) and every key tuple,
`compute` returns `Ok` with the 70-character, all-hexadecimal address made of
the prefix followed by the truncated digests of the key components. -/
theorem C7_address_shape (digest : String → List Char)
    (hdig : ∀ x, (digest x).length = 128 ∧ ∀ ch ∈ digest x, isHexChar ch = true) :
    (∀ a : KeyHashAddresser, a.pfx.length ≤ 70 →
      (∀ ch ∈ a.pfx, isHexChar ch = true) → ∀ key,
      a.compute digest key = .ok (a.pfx ++ (digest key).take (70 - a.pfx.length)) ∧
      (a.pfx ++ (digest key).take (70 - a.pfx.length)).length = 70 ∧
      ∀ ch ∈ a.pfx ++ (digest key).take (70 - a.pfx.length), isHexChar ch = true) ∧
    (∀ a : DoubleKeyHashAddresser, a.pfx.length + a.firstHashLength ≤ 70 →
      (∀ ch ∈ a.pfx, isHexChar ch = true) → ∀ keys,
      a.compute digest keys =
        .ok (a.pfx ++ (digest keys.1).take a.firstHashLength ++
          (digest keys.2).take (70 - a.pfx.length - a.firstHashLength)) ∧
      (a.pfx ++ (digest keys.1).take a.firstHashLength ++
        (digest keys.2).take (70 - a.pfx.length - a.firstHashLength)).length = 70 ∧
      ∀ ch ∈ a.pfx ++ (digest keys.1).take a.firstHashLength ++
        (digest keys.2).take (70 - a.pfx.length - a.firstHashLength),
        isHexChar ch = true) ∧
    (∀ a : TripleKeyHashAddresser,
      a.pfx.length + a.firstHashLength + a.secondHashLength ≤ 70 →
      (∀ ch ∈ a.pfx, isHexChar ch = true) → ∀ keys,
      a.compute digest keys =
        .ok (a.pfx ++ (digest keys.1).take a.firstHashLength ++
          (digest keys.2.1).take a.secondHashLength ++
          (digest keys.2.2).take
            (70 - a.pfx.length - a.firstHashLength - a.secondHashLength)) ∧
      (a.pfx ++ (digest keys.1).take a.firstHashLength ++
        (digest keys.2.1).take a.secondHashLength ++
        (digest keys.2.2).take
          (70 - a.pfx.length - a.firstHashLength - a.secondHashLength)).length =
        70 ∧
      ∀ ch ∈ a.pfx ++ (digest keys.1).take a.firstHashLength ++
        (digest keys.2.1).take a.secondHashLength ++
        (digest keys.2.2).take
          (70 - a.pfx.length - a.firstHashLength - a.secondHashLength),
        isHexChar ch = true) :=
  ⟨fun a hp hphex key => keyHashCompute_shape digest hdig a hp hphex key,
    fun a hp hphex keys => doubleCompute_shape digest hdig a hp hphex keys,
    fun a hp hphex keys => tripleCompute_shape digest hdig a hp hphex keys⟩

/-- A hexadecimal demonstration prefix (spec section 8, scenario 1). -/
def pfxHex : List Char := "ab0000".data

/-- Witness for C7 at the stand-in digest and the hexadecimal prefix
`"ab0000"` of the single-key variant. -/
theorem C7_address_shape_witness :
    (∀ x, (constDigest x).length = 128 ∧ ∀ ch ∈ constDigest x, isHexChar ch = true) ∧
    pfxHex.length ≤ 70 ∧
    (∀ ch ∈ pfxHex, isHexChar ch = true) ∧
    ((KeyHashAddresser.mk pfxHex).compute constDigest "alice" =
      .ok (pfxHex ++ (constDigest "alice").take (70 - pfxHex.length)) ∧
      (pfxHex ++ (constDigest "alice").take (70 - pfxHex.length)).length = 70 ∧
      ∀ ch ∈ pfxHex ++ (constDigest "alice").take (70 - pfxHex.length),
        isHexChar ch = true) :=
  ⟨constDigest_spec, by decide, by decide,
    (C7_address_shape constDigest constDigest_spec).1 ⟨pfxHex⟩ (by decide)
      (by decide) "alice"⟩

/-! ## C8: triple-key default length split -/

/-- C8: with both optional lengths unset the first two segment lengths are
each `(70 - len(prefix)) / 3` (integer division) and the third length used by
`compute` is the exact remainder; with prefix length 6 this gives
`(21, 21, 22)`; with only one length set the other defaults to half of what
remains after subtracting it and the third always absorbs the rest. -/
theorem C8_triple_default_split (pfx : List Char) (hp : pfx.length ≤ 70) :
    calculateHashLengths pfx.length none none =
      ((70 - pfx.length) / 3, (70 - pfx.length) / 3) ∧
    (TripleKeyHashAddresser.new pfx none none).lastHashLength =
      70 - pfx.length - 2 * ((70 - pfx.length) / 3) ∧
    (pfx.length = 6 →
      calculateHashLengths pfx.length none none = (21, 21) ∧
      (TripleKeyHashAddresser.new pfx none none).lastHashLength = 22) ∧
    (∀ f, pfx.length + f ≤ 70 →
      calculateHashLengths pfx.length (some f) none =
        (f, (70 - pfx.length - f) / 2) ∧
      (TripleKeyHashAddresser.new pfx (some f) none).lastHashLength =
        70 - pfx.length - f - (70 - pfx.length - f) / 2) ∧
    (∀ s2, pfx.length + s2 ≤ 70 →
      calculateHashLengths pfx.length none (some s2) =
        ((70 - pfx.length - s2) / 2, s2) ∧
      (TripleKeyHashAddresser.new pfx none (some s2)).lastHashLength =
        70 - pfx.length - s2 - (70 - pfx.length - s2) / 2) := by
  have hMlt : (70 : Nat) < usizeMod := by rw [usizeMod_eq]; norm_num
  have hws : wrapSub addressLength pfx.length = 70 - pfx.length := by
    rw [addressLength_eq]
    exact wrapSub_small hp hMlt
  have hchl : calculateHashLengths pfx.length none none =
      ((70 - pfx.length) / 3, (70 - pfx.length) / 3) := by
    simp only [calculateHashLengths]
    rw [hws]
  have hnew : TripleKeyHashAddresser.new pfx none none =
      ⟨pfx, (70 - pfx.length) / 3, (70 - pfx.length) / 3⟩ := by
    simp only [TripleKeyHashAddresser.new]
    rw [hchl]
  have hlast0 : (TripleKeyHashAddresser.new pfx none none).lastHashLength =
      70 - pfx.length - 2 * ((70 - pfx.length) / 3) := by
    rw [hnew]
    unfold TripleKeyHashAddresser.lastHashLength
    simp only
    rw [hws, wrapAdd_small (by rw [usizeMod_eq]; omega),
      wrapSub_small (by omega) (by rw [usizeMod_eq]; omega)]
    omega
  refine ⟨hchl, hlast0, ?_, ?_, ?_⟩
  · intro h6
    rw [hchl, hlast0, h6]
    exact ⟨by norm_num, by norm_num⟩
  · intro f hf
    have hws2 : wrapSub (70 - pfx.length) f = 70 - pfx.length - f :=
      wrapSub_small (by omega) (by rw [usizeMod_eq]; omega)
    have hchl2 : calculateHashLengths pfx.length (some f) none =
        (f, (70 - pfx.length - f) / 2) := by
      simp only [calculateHashLengths]
      rw [hws, hws2]
    have hnew2 : TripleKeyHashAddresser.new pfx (some f) none =
        ⟨pfx, f, (70 - pfx.length - f) / 2⟩ := by
      simp only [TripleKeyHashAddresser.new]
      rw [hchl2]
    refine ⟨hchl2, ?_⟩
    rw [hnew2]
    unfold TripleKeyHashAddresser.lastHashLength
    simp only
    rw [hws, wrapAdd_small (by rw [usizeMod_eq]; omega),
      wrapSub_small (by omega) (by rw [usizeMod_eq]; omega)]
    omega
  · intro s2 hs
    have hws2 : wrapSub (70 - pfx.length) s2 = 70 - pfx.length - s2 :=
      wrapSub_small (by omega) (by rw [usizeMod_eq]; omega)
    have hchl2 : calculateHashLengths pfx.length none (some s2) =
        ((70 - pfx.length - s2) / 2, s2) := by
      simp only [calculateHashLengths]
      rw [hws, hws2]
    have hnew2 : TripleKeyHashAddresser.new pfx none (some s2) =
        ⟨pfx, (70 - pfx.length - s2) / 2, s2⟩ := by
      simp only [TripleKeyHashAddresser.new]
      rw [hchl2]
    refine ⟨hchl2, ?_⟩
    rw [hnew2]
    unfold TripleKeyHashAddresser.lastHashLength
    simp only
    rw [hws, wrapAdd_small (by rw [usizeMod_eq]; omega),
      wrapSub_small (by omega) (by rw [usizeMod_eq]; omega)]
    omega

/-- Witness for C8 at the prefix `"prefix"` of length 6: the default split is
`(21, 21)` with the third segment length 22. -/
theorem C8_triple_default_split_witness :
    pfxDemo.length ≤ 70 ∧
    (calculateHashLengths pfxDemo.length none none =
      ((70 - pfxDemo.length) / 3, (70 - pfxDemo.length) / 3) ∧
    (TripleKeyHashAddresser.new pfxDemo none none).lastHashLength =
      70 - pfxDemo.length - 2 * ((70 - pfxDemo.length) / 3) ∧
    (pfxDemo.length = 6 →
      calculateHashLengths pfxDemo.length none none = (21, 21) ∧
      (TripleKeyHashAddresser.new pfxDemo none none).lastHashLength = 22) ∧
    (∀ f, pfxDemo.length + f ≤ 70 →
      calculateHashLengths pfxDemo.length (some f) none =
        (f, (70 - pfxDemo.length - f) / 2) ∧
      (TripleKeyHashAddresser.new pfxDemo (some f) none).lastHashLength =
        70 - pfxDemo.length - f - (70 - pfxDemo.length - f) / 2) ∧
    (∀ s2, pfxDemo.length + s2 ≤ 70 →
      calculateHashLengths pfxDemo.length none (some s2) =
        ((70 - pfxDemo.length - s2) / 2, s2) ∧
      (TripleKeyHashAddresser.new pfxDemo none (some s2)).lastHashLength =
        70 - pfxDemo.length - s2 - (70 - pfxDemo.length - s2) / 2)) :=
  ⟨by decide, C8_triple_default_split pfxDemo (by decide)⟩

end SawtoothSabre
